import Mathlib

/-!
# Verification of the subxt storage-query subsystem

A shallow embedding of `src/storage.rs` (key derivation, typed fetch with
default fallback, and the paginated key iterator `KeyIter`), together with
theorems settling the specification claims about it.

Bytes are modelled as `List Nat`; the external hash primitives from
`sp_core` (blake2, twox) are not implemented in the source repository, so
they appear here as an abstract bundle of functions whose output widths
match the `[u8; N]` return types of the primitives.
-/

namespace Subxt

/-- A byte string (`Vec<u8>` / `&[u8]`). -/
abbrev Bytes := List Nat

/-- The external hash primitives used by `storage.rs` (`sp_core::twox_128`,
`sp_core::twox_64`, `sp_core::twox_256`, `sp_core::blake2_128`,
`sp_core::blake2_256`).  They live outside this repository; the length
fields record the `[u8; N]` return types of the Rust functions. -/
structure HashPrims where
  twox128 : Bytes → Bytes
  twox64 : Bytes → Bytes
  twox256 : Bytes → Bytes
  blake2_128 : Bytes → Bytes
  blake2_256 : Bytes → Bytes
  twox128_len : ∀ b, (twox128 b).length = 16
  twox64_len : ∀ b, (twox64 b).length = 8
  twox256_len : ∀ b, (twox256 b).length = 32
  blake2_128_len : ∀ b, (blake2_128 b).length = 16
  blake2_256_len : ∀ b, (blake2_256 b).length = 32

/-- `StorageHasher` (re-exported by the crate root and matched on in
`StorageEntryKey::hash`). -/
inductive StorageHasher where
  | Identity
  | Blake2_128
  | Blake2_128Concat
  | Blake2_256
  | Twox128
  | Twox256
  | Twox64Concat
deriving DecidableEq

/-- `StorageMapKey`: the SCALE-encoded bytes of one map key together with
its hasher (`StorageMapKey { value, hasher }`). -/
structure StorageMapKey where
  value : Bytes
  hasher : StorageHasher

/-- `StorageEntryKey`: either a plain key or a list of map keys. -/
inductive StorageEntryKey where
  | Plain : StorageEntryKey
  | Map : List StorageMapKey → StorageEntryKey

/-- `StorageEntryKey::hash`: apply one hasher to one encoded map key. -/
def StorageEntryKey.hash (H : HashPrims) (hasher : StorageHasher) (bytes : Bytes) : Bytes :=
  match hasher with
  | .Identity => bytes
  | .Blake2_128 => H.blake2_128 bytes
  | .Blake2_128Concat => H.blake2_128 bytes ++ bytes
  | .Blake2_256 => H.blake2_256 bytes
  | .Twox128 => H.twox128 bytes
  | .Twox256 => H.twox256 bytes
  | .Twox64Concat => H.twox64 bytes ++ bytes

/-- `StorageKeyPrefix::new::<T>()`: `twox_128(T::PALLET) ++ twox_128(T::STORAGE)`.
`pallet` and `storage` are the UTF-8 bytes of the two names. -/
def storageKeyRoot (H : HashPrims) (pallet storage : Bytes) : Bytes :=
  H.twox128 pallet ++ H.twox128 storage

/-- `StorageEntryKey::final_key::<T>`: start from the two-hash root and,
for a `Map` key, extend with the hash of each map key in declared order. -/
def StorageEntryKey.final_key (H : HashPrims) (pallet storage : Bytes)
    (key : StorageEntryKey) : Bytes :=
  match key with
  | .Plain => storageKeyRoot H pallet storage
  | .Map map_keys =>
      map_keys.foldl
        (fun bytes map_key => bytes ++ StorageEntryKey.hash H map_key.hasher map_key.value)
        (storageKeyRoot H pallet storage)

/-- The compile-time identity of a storage entry: the `StorageEntry` trait
(`PALLET`, `STORAGE`, `fn key`); the value type is a type parameter of the
operations that use it. -/
structure StorageEntry where
  PALLET : Bytes
  STORAGE : Bytes
  key : StorageEntryKey

/-- Errors reported by the metadata collaborator (`crate::Metadata`, outside
this repository): unknown pallet, unknown storage item, or a declared
default that does not decode. -/
inductive MetadataError where
  | palletNotFound
  | storageNotFound
  | defaultError
deriving DecidableEq

/-- `crate::Error`: transport errors from the RPC collaborator, SCALE decode
errors (`codec::Error`, carried as an abstract code), and metadata-lookup
errors.  Only the variants reachable from `storage.rs` are modelled. -/
inductive SubxtError where
  | rpc : Nat → SubxtError
  | codec : Nat → SubxtError
  | metadata : MetadataError → SubxtError
deriving DecidableEq

/-- `StorageClient::fetch_unhashed::<V>`: one transport read
(`self.rpc.storage(&key, hash)`), then decode when bytes came back.
`rpcStorage` is the transport collaborator; `dec` is `V`'s
`Decode::decode`, whose failure is lifted into `SubxtError.codec` by the
`?` conversion. -/
def fetch_unhashed {Hh V : Type}
    (rpcStorage : Bytes → Option Hh → Except SubxtError (Option Bytes))
    (dec : Bytes → Except Nat V)
    (key : Bytes) (hash : Option Hh) : Except SubxtError (Option V) :=
  match rpcStorage key hash with
  | .error e => .error e
  | .ok none => .ok none
  | .ok (some data) =>
      match dec data with
      | .ok v => .ok (some v)
      | .error e => .error (.codec e)

/-- `StorageClient::fetch::<F>`: derive the final key of the entry, then
`fetch_unhashed`. -/
def fetch {Hh V : Type} (H : HashPrims)
    (rpcStorage : Bytes → Option Hh → Except SubxtError (Option Bytes))
    (dec : Bytes → Except Nat V)
    (store : StorageEntry) (hash : Option Hh) : Except SubxtError (Option V) :=
  fetch_unhashed rpcStorage dec
    (StorageEntryKey.final_key H store.PALLET store.STORAGE store.key) hash

/-- Modelled from the spec: the storage-item half of the metadata
collaborator (`storage_metadata.default()` decodes the declared default of
the item, reporting a metadata error when it is undecodable).  The
collaborator itself is not part of this repository. -/
structure StorageMetadata (V : Type) where
  default : Except MetadataError V

/-- Modelled from the spec: the pallet half of the metadata collaborator
(`pallet_metadata.storage(name)` resolves a storage item by name or
reports it unknown). -/
structure PalletMetadata (V : Type) where
  storage : Bytes → Except MetadataError (StorageMetadata V)

/-- Modelled from the spec: the metadata collaborator
(`self.metadata.pallet(name)` resolves a pallet by name or reports it
unknown). -/
structure Metadata (V : Type) where
  pallet : Bytes → Except MetadataError (PalletMetadata V)

/-- `StorageClient::fetch_or_default::<F>`: return the fetched value when
present; otherwise look up `(PALLET, STORAGE)` in the metadata collaborator
and return its decoded default.  Each metadata failure is lifted into
`SubxtError.metadata` by the `?` conversions. -/
def fetch_or_default {Hh V : Type} (H : HashPrims)
    (rpcStorage : Bytes → Option Hh → Except SubxtError (Option Bytes))
    (dec : Bytes → Except Nat V)
    (meta : Metadata V)
    (store : StorageEntry) (hash : Option Hh) : Except SubxtError V :=
  match fetch H rpcStorage dec store hash with
  | .error e => .error e
  | .ok (some data) => .ok data
  | .ok none =>
      match meta.pallet store.PALLET with
      | .error e => .error (.metadata e)
      | .ok pallet_metadata =>
          match pallet_metadata.storage store.STORAGE with
          | .error e => .error (.metadata e)
          | .ok storage_metadata =>
              match storage_metadata.default with
              | .error e => .error (.metadata e)
              | .ok d => .ok d

/-- `Vec::push`: append one element at the back of the buffer. -/
def vecPush {α : Type} (buf : List α) (x : α) : List α :=
  buf ++ [x]

/-- `Vec::pop`: remove and return the last element of the buffer, when any. -/
def vecPop {α : Type} (buf : List α) : Option (α × List α) :=
  match buf.getLast? with
  | none => none
  | some x => some (x, buf.dropLast)

/-- The inner loop of the buffer fill in `KeyIter::next`: for every
`(key, Some(value))` change in one change set, push `(key, value)` onto
the buffer; absent values are skipped. -/
def pushChanges {K B : Type} (buf : List (K × B)) (changes : List (K × Option B)) :
    List (K × B) :=
  changes.foldl
    (fun buf kv =>
      match kv.2 with
      | some v => vecPush buf (kv.1, v)
      | none => buf)
    buf

/-- The outer loop of the buffer fill in `KeyIter::next`: process every
change set in turn. -/
def fillBuffer {K B : Type} (buffer : List (K × B))
    (change_sets : List (List (K × Option B))) : List (K × B) :=
  change_sets.foldl pushChanges buffer

/-- The two transport operations `KeyIter::next` performs, at the fixed
block hash held by the iterator: `StorageClient::fetch_keys` (which calls
`rpc.storage_keys_paged` with the entry's two-hash root) and
`rpc.query_storage_at`. -/
structure Transport (K B : Type) where
  fetch_keys : Nat → Option K → List K
  query_storage_at : List K → List (List (K × Option B))

/-- The mutable state of `KeyIter`: the page size `count`, the pagination
cursor `start_key` and the drained-from-the-back buffer of raw
`(StorageKey, StorageData)` pairs.  The client, the `PhantomData` marker
and the fixed block hash are carried by the `Transport` oracle instead. -/
structure KeyIterState (K B : Type) where
  count : Nat
  start_key : Option K
  buffer : List (K × B)
deriving DecidableEq

/-- `KeyIter::next`, with an explicit fuel bound on the number of
iterations of its `loop` (`none` means the fuel ran out).  On success it
returns the call's result (`Ok(Some(pair))`, `Ok(None)`, or a decode
error), the state the iterator is left in, and how many
`fetch_keys` page requests the call performed.  Note that
`self.start_key.take()` leaves the cursor `None` when the page comes back
empty. -/
def KeyIter.nextAux {K B Er V : Type} (T : Transport K B) (dec : B → Except Er V) :
    Nat → KeyIterState K B → Option (Except Er (Option (K × V)) × KeyIterState K B × Nat)
  | 0, _ => none
  | fuel + 1, s =>
    match vecPop s.buffer with
    | some ((k, v), rest) =>
        match dec v with
        | .ok value => some (.ok (some (k, value)), { s with buffer := rest }, 0)
        | .error e => some (.error e, { s with buffer := rest }, 0)
    | none =>
        let keys := T.fetch_keys s.count s.start_key
        if keys.isEmpty then
          some (.ok none, { s with start_key := none }, 1)
        else
          let s' : KeyIterState K B :=
            { s with
                start_key := keys.getLast?
                buffer := fillBuffer s.buffer (T.query_storage_at keys) }
          match KeyIter.nextAux T dec fuel s' with
          | none => none
          | some (r, s'', pages) => some (r, s'', pages + 1)

/-- Driver harness (not part of the source): call `KeyIter.nextAux`
repeatedly until it reports no more items, collecting the yielded pairs
and the total number of page requests.  `none` when either fuel runs out
or a decode error occurs (no claim drives the iterator across an error). -/
def KeyIter.drive {K B Er V : Type} (T : Transport K B) (dec : B → Except Er V)
    (innerFuel : Nat) :
    Nat → KeyIterState K B → Option (List (K × V) × Nat)
  | 0, _ => none
  | fuel + 1, s =>
    match KeyIter.nextAux T dec innerFuel s with
    | none => none
    | some (.error _, _, _) => none
    | some (.ok none, _, pages) => some ([], pages)
    | some (.ok (some kv), s', pages) =>
        match KeyIter.drive T dec innerFuel fuel s' with
        | none => none
        | some (rest, pages') => some (kv :: rest, pages + pages')

/-- Modelled from the spec: `read_many` / `state_queryStorageAt` on the
transport collaborator returns one change set holding, for every requested
key in request order, that key's current value or its absence. -/
def queryStorageAtMock {K B : Type} (val : K → Option B) (keys : List K) :
    List (List (K × Option B)) :=
  [keys.map (fun k => (k, val k))]

/-- The cursor test applied by the page-listing collaborator: with no
cursor every key qualifies, with cursor `c` exactly the keys strictly
greater than `c` qualify. -/
def afterCursor {K : Type} [LinearOrder K] (st : Option K) (k : K) : Bool :=
  match st with
  | none => true
  | some c => decide (c < k)

/-- Modelled from the spec: the transport collaborator for one storage map
whose listing sees the sorted key list `ks` and whose value read sees
`val` (`list_keys` returns up to `count` keys lexicographically following
the cursor; `read_many` is `queryStorageAtMock`). -/
def mockTransport {K B : Type} [LinearOrder K] (ks : List K) (val : K → Option B) :
    Transport K B where
  fetch_keys count start := ((ks.filter (afterCursor start)).take count)
  query_storage_at := queryStorageAtMock val

/-- Reference description of a full drive of `KeyIter` over the mock
transport: page after page of up to `count` keys, each page contributing
its present-valued pairs in reverse order, plus one final empty page
request.  Returns the yielded pairs and the page-request count. -/
def driveSpec {K B V : Type} (count : Nat) (val : K → Option B) (g : B → V)
    (pend : List K) : List (K × V) × Nat :=
  if h : (pend.take count).isEmpty then
    ([], 1)
  else
    let p := pend.take count
    let rest := driveSpec count val g (pend.drop count)
    ((p.filterMap (fun k => (val k).map (fun v => (k, g v)))).reverse ++ rest.1,
      rest.2 + 1)
termination_by pend.length
decreasing_by
  simp only [List.isEmpty_iff, List.take_eq_nil_iff, not_or] at h
  rcases pend with _ | ⟨a, l⟩
  · simp at h
  · cases count with
    | zero => simp at h
    | succ c => simp [Nat.lt_succ_iff]

/-- The successive pages of up to `count` keys the listing collaborator
serves for a key list: the take / drop decomposition driven to the first
empty page. -/
def chunks {α : Type} (count : Nat) (l : List α) : List (List α) :=
  if h : (l.take count).isEmpty then []
  else l.take count :: chunks count (l.drop count)
termination_by l.length
decreasing_by
  simp only [List.isEmpty_iff, List.take_eq_nil_iff, not_or] at h
  rcases l with _ | ⟨a, l2⟩
  · simp at h
  · cases count with
    | zero => simp at h
    | succ c => simp [Nat.lt_succ_iff]

/-- A concrete bundle of hash primitives (constant digests of the right
widths), used to instantiate theorems at closed inputs. -/
def trivialHashPrims : HashPrims where
  twox128 _ := List.replicate 16 0
  twox64 _ := List.replicate 8 0
  twox256 _ := List.replicate 32 0
  blake2_128 _ := List.replicate 16 0
  blake2_256 _ := List.replicate 32 0
  twox128_len _ := List.length_replicate 16 0
  twox64_len _ := List.length_replicate 8 0
  twox256_len _ := List.length_replicate 32 0
  blake2_128_len _ := List.length_replicate 16 0
  blake2_256_len _ := List.length_replicate 32 0

/-! ## General lemmas -/

theorem foldl_append_eq_join {α β : Type} (f : α → List β) :
    ∀ (l : List α) (init : List β),
      l.foldl (fun bytes x => bytes ++ f x) init = init ++ (l.map f).flatten := by
  intro l
  induction l with
  | nil => intro init; simp
  | cons x xs ih => intro init; simp [List.foldl_cons, ih]

theorem vecPop_concat {α : Type} (l : List α) (x : α) :
    vecPop (l ++ [x]) = some (x, l) := by
  simp [vecPop, List.getLast?_concat, List.dropLast_concat]

theorem vecPop_nil {α : Type} : vecPop ([] : List α) = none := rfl

theorem pushChanges_eq {K B : Type} :
    ∀ (cs : List (K × Option B)) (buf : List (K × B)),
      pushChanges buf cs = buf ++ cs.filterMap (fun kv => kv.2.map (fun v => (kv.1, v))) := by
  intro cs
  induction cs with
  | nil => intro buf; simp [pushChanges]
  | cons kv tl ih =>
      intro buf
      rcases kv with ⟨k, v⟩
      cases v with
      | none => simpa [pushChanges, List.foldl_cons] using ih buf
      | some v =>
          have h := ih (vecPush buf (k, v))
          simp only [pushChanges, List.foldl_cons, vecPush] at h ⊢
          rw [h]
          simp

theorem fillBuffer_single {K B : Type} (buf : List (K × B)) (cs : List (K × Option B)) :
    fillBuffer buf [cs] = buf ++ cs.filterMap (fun kv => kv.2.map (fun v => (kv.1, v))) := by
  simp [fillBuffer, pushChanges_eq]

theorem length_filterMap_eq_iff {α β : Type} (f : α → Option β) :
    ∀ l : List α, ((l.filterMap f).length = l.length) ↔ ∀ a ∈ l, (f a).isSome := by
  intro l
  induction l with
  | nil => simp
  | cons a tl ih =>
      have hle := List.length_filterMap_le f tl
      cases hfa : f a with
      | none =>
          simp only [List.filterMap_cons, hfa, List.length_cons]
          constructor
          · intro h
            exfalso
            omega
          · intro h
            exact absurd (h a (by simp)) (by simp [hfa])
      | some b =>
          simp only [List.filterMap_cons, hfa, List.length_cons]
          constructor
          · intro h
            intro x hx
            rw [List.mem_cons] at hx
            rcases hx with hx | hx
            · simp [hx, hfa]
            · exact (ih.mp (by omega)) x hx
          · intro h
            have hh : (tl.filterMap f).length = tl.length :=
              ih.mpr (fun x hx => h x (by simp [hx]))
            omega

/-! ## Claim theorems: key derivation and fetch engine -/

/-- C1: the wire key produced by `StorageEntryKey::final_key` is
`twox_128(PALLET) ++ twox_128(STORAGE)` for a `Plain` key, and that two-hash
root followed by, for each `StorageMapKey` in declared order, the hash of
its encoded bytes under its `StorageHasher`, for a `Map` key. -/
theorem final_key_spec (H : HashPrims) (pallet storage : Bytes)
    (map_keys : List StorageMapKey) :
    StorageEntryKey.final_key H pallet storage .Plain =
      H.twox128 pallet ++ H.twox128 storage ∧
    StorageEntryKey.final_key H pallet storage (.Map map_keys) =
      (H.twox128 pallet ++ H.twox128 storage) ++
        (map_keys.map (fun mk => StorageEntryKey.hash H mk.hasher mk.value)).flatten := by
  constructor
  · rfl
  · simpa [StorageEntryKey.final_key, storageKeyRoot] using
      foldl_append_eq_join (fun mk : StorageMapKey => StorageEntryKey.hash H mk.hasher mk.value)
        map_keys (H.twox128 pallet ++ H.twox128 storage)

/-- C7: the `Identity` hasher returns its input unchanged, and the two
concat hashers return the fixed-width hash followed by the input itself,
so the tail of the output after the hash width (16 bytes for blake2_128,
8 bytes for twox_64) is exactly the input. -/
theorem concat_hashers_preserve_preimage (H : HashPrims) (b : Bytes) :
    StorageEntryKey.hash H .Identity b = b ∧
    StorageEntryKey.hash H .Blake2_128Concat b = H.blake2_128 b ++ b ∧
    (StorageEntryKey.hash H .Blake2_128Concat b).drop 16 = b ∧
    StorageEntryKey.hash H .Twox64Concat b = H.twox64 b ++ b ∧
    (StorageEntryKey.hash H .Twox64Concat b).drop 8 = b := by
  refine ⟨rfl, rfl, ?_, rfl, ?_⟩
  · have h16 : (H.blake2_128 b).length = 16 := H.blake2_128_len b
    calc (StorageEntryKey.hash H .Blake2_128Concat b).drop 16
        = (H.blake2_128 b ++ b).drop (H.blake2_128 b).length := by rw [h16]; rfl
      _ = b := List.drop_left _ _
  · have h8 : (H.twox64 b).length = 8 := H.twox64_len b
    calc (StorageEntryKey.hash H .Twox64Concat b).drop 8
        = (H.twox64 b ++ b).drop (H.twox64 b).length := by rw [h8]; rfl
      _ = b := List.drop_left _ _

/-- C3: `fetch_unhashed` returns `Ok(None)` exactly when the transport read
returns no bytes; bytes that fail to decode produce a decode error, never
`Ok(None)`; and `fetch` is `fetch_unhashed` at the entry's final key, so
the same holds for it. -/
theorem fetch_absent_vs_corrupt {Hh V : Type} (H : HashPrims)
    (rpcStorage : Bytes → Option Hh → Except SubxtError (Option Bytes))
    (dec : Bytes → Except Nat V)
    (store : StorageEntry) (key : Bytes) (hash : Option Hh) :
    (fetch_unhashed rpcStorage dec key hash = .ok none ↔
      rpcStorage key hash = .ok none) ∧
    (∀ data e, rpcStorage key hash = .ok (some data) → dec data = .error e →
      fetch_unhashed rpcStorage dec key hash = .error (.codec e)) ∧
    fetch H rpcStorage dec store hash =
      fetch_unhashed rpcStorage dec
        (StorageEntryKey.final_key H store.PALLET store.STORAGE store.key) hash := by
  refine ⟨?_, ?_, rfl⟩
  · unfold fetch_unhashed
    cases hr : rpcStorage key hash with
    | error e => simp
    | ok o =>
        cases o with
        | none => simp
        | some data =>
            cases hd : dec data with
            | ok v => simp [hd]
            | error e => simp [hd]
  · intro data e h1 h2
    simp [fetch_unhashed, h1, h2]

/-- Closed instance of `fetch_absent_vs_corrupt`: a transport read that
returns the bytes `[0]` which fail to decode with code 3 makes
`fetch_unhashed` report the decode error. -/
theorem fetch_absent_vs_corrupt_witness :
    fetch_unhashed (fun (_ : Bytes) (_ : Option Unit) =>
        (.ok (some [0]) : Except SubxtError (Option Bytes)))
      (fun _ => (.error 3 : Except Nat Nat)) [] none = .error (.codec 3) :=
  (fetch_absent_vs_corrupt trivialHashPrims
    (fun _ _ => .ok (some [0])) (fun _ => .error 3) ⟨[], [], .Plain⟩ [] none).2.1
    [0] 3 rfl rfl

/-- C4: `fetch_or_default` returns the stored value when `fetch` finds one;
the decoded metadata default when `fetch` finds none and the metadata
lookups succeed; and a metadata-lookup error when the pallet is unknown,
the storage item is unknown, or the declared default does not decode. -/
theorem fetch_or_default_spec {Hh V : Type} (H : HashPrims)
    (rpcStorage : Bytes → Option Hh → Except SubxtError (Option Bytes))
    (dec : Bytes → Except Nat V) (meta : Metadata V)
    (store : StorageEntry) (hash : Option Hh) :
    (∀ v, fetch H rpcStorage dec store hash = .ok (some v) →
      fetch_or_default H rpcStorage dec meta store hash = .ok v) ∧
    (∀ pm sm d, fetch H rpcStorage dec store hash = .ok none →
      meta.pallet store.PALLET = .ok pm → pm.storage store.STORAGE = .ok sm →
      sm.default = .ok d →
      fetch_or_default H rpcStorage dec meta store hash = .ok d) ∧
    (∀ e, fetch H rpcStorage dec store hash = .ok none →
      meta.pallet store.PALLET = .error e →
      fetch_or_default H rpcStorage dec meta store hash = .error (.metadata e)) ∧
    (∀ pm e, fetch H rpcStorage dec store hash = .ok none →
      meta.pallet store.PALLET = .ok pm → pm.storage store.STORAGE = .error e →
      fetch_or_default H rpcStorage dec meta store hash = .error (.metadata e)) ∧
    (∀ pm sm e, fetch H rpcStorage dec store hash = .ok none →
      meta.pallet store.PALLET = .ok pm → pm.storage store.STORAGE = .ok sm →
      sm.default = .error e →
      fetch_or_default H rpcStorage dec meta store hash = .error (.metadata e)) := by
  refine ⟨?_, ?_, ?_, ?_, ?_⟩
  · intro v hf
    simp [fetch_or_default, hf]
  · intro pm sm d hf h1 h2 h3
    simp [fetch_or_default, hf, h1, h2, h3]
  · intro e hf h1
    simp [fetch_or_default, hf, h1]
  · intro pm e hf h1 h2
    simp [fetch_or_default, hf, h1, h2]
  · intro pm sm e hf h1 h2 h3
    simp [fetch_or_default, hf, h1, h2, h3]

/-- Closed instance of `fetch_or_default_spec`: with a transport returning
no bytes and a metadata collaborator that does not know the pallet,
`fetch_or_default` reports the metadata-lookup error. -/
theorem fetch_or_default_spec_witness :
    fetch_or_default trivialHashPrims
      (fun (_ : Bytes) (_ : Option Unit) => (.ok none : Except SubxtError (Option Bytes)))
      (fun _ => (.ok 0 : Except Nat Nat))
      ⟨fun _ => .error .palletNotFound⟩ ⟨[], [], .Plain⟩ none =
      .error (.metadata .palletNotFound) :=
  (fetch_or_default_spec _ _ _ _ _ _).2.2.1 MetadataError.palletNotFound rfl rfl

/-! ## Claim theorems: the key iterator -/

/-- C5: the code violates the claim.  `self.start_key.take()` leaves the
cursor `None` when the page request comes back empty, so the state after
exhaustion equals the initial state and the following call to `next`
restarts iteration from the beginning of the map instead of reporting "no
more items".  Concretely, over the one-entry map `{5 ↦ 7}` with page size
1: the first call yields `(5, 7)`, the second call reports exhaustion and
resets the cursor, and the third call yields `(5, 7)` again. -/
theorem next_restarts_after_exhaustion :
    KeyIter.nextAux (mockTransport [5] (fun _ => some 7))
        (fun b => (.ok b : Except Nat Nat)) 2
        ⟨1, none, []⟩ =
      some (.ok (some (5, 7)), ⟨1, some 5, []⟩, 1) ∧
    KeyIter.nextAux (mockTransport [5] (fun _ => some 7))
        (fun b => (.ok b : Except Nat Nat)) 2
        ⟨1, some 5, []⟩ =
      some (.ok none, ⟨1, none, []⟩, 1) := by
  exact ⟨rfl, rfl⟩

/-- C9: the `debug_assert_eq!(self.buffer.len(), keys.len())` after a fill
holds exactly when every listed key had a present value in the batched
value read: starting from the empty buffer `KeyIter::next` had at that
point, the filled buffer has as many pairs as listed keys iff no listed
key's value was absent. -/
theorem fill_assert_iff_all_present {K B : Type} (val : K → Option B) (keys : List K) :
    (fillBuffer [] (queryStorageAtMock val keys)).length = keys.length ↔
      ∀ k ∈ keys, (val k).isSome := by
  have h1 : fillBuffer [] (queryStorageAtMock val keys) =
      (keys.map (fun k => (k, val k))).filterMap
        (fun kv => kv.2.map (fun v => (kv.1, v))) := by
    simpa [queryStorageAtMock] using
      fillBuffer_single ([] : List (K × B)) (keys.map (fun k => (k, val k)))
  have h2 : (keys.map (fun k => (k, val k))).filterMap
        (fun kv => kv.2.map (fun v => (kv.1, v))) =
      keys.filterMap (fun k => (val k).map (fun v => (k, v))) := by
    rw [List.filterMap_map]
    rfl
  rw [h1, h2]
  have h3 := length_filterMap_eq_iff (fun k => (val k).map (fun v => (k, v))) keys
  constructor
  · intro h k hk
    have := h3.mp h k hk
    cases hval : val k with
    | none => rw [hval] at this; simp at this
    | some v => simp
  · intro h
    refine h3.mpr (fun k hk => ?_)
    cases hval : val k with
    | none => exact absurd (h k hk) (by simp [hval])
    | some v => simp [hval]

/-- C10: when the pair at the top of the buffer fails to decode,
`KeyIter::next` pops it first and then returns the decode error, so the
iterator's state no longer holds the corrupt pair and the following call
works on the remaining buffered pairs. -/
theorem decode_error_skips_pair {K B Er V : Type} (T : Transport K B)
    (dec : B → Except Er V) (s : KeyIterState K B)
    (b : List (K × B)) (k : K) (v : B) (e : Er) (fuel : Nat)
    (hbuf : s.buffer = b ++ [(k, v)]) (hdec : dec v = .error e) :
    KeyIter.nextAux T dec (fuel + 1) s = some (.error e, { s with buffer := b }, 0) ∧
    (∀ c k2 v2 u m, b = c ++ [(k2, v2)] → dec v2 = .ok u →
      KeyIter.nextAux T dec (m + 1) { s with buffer := b } =
        some (.ok (some (k2, u)), { s with buffer := c }, 0)) := by
  constructor
  · unfold KeyIter.nextAux
    simp only [hbuf, vecPop_concat, hdec]
  · intro c k2 v2 u m hb hdec2
    unfold KeyIter.nextAux
    simp only [hb, vecPop_concat, hdec2]

/-- Closed instance of `decode_error_skips_pair`: with buffer
`[(1, 1), (2, 0)]` and a decoder failing on `0`, `next` returns the decode
error leaving `[(1, 1)]`, and the following call yields `(1, 1)`. -/
theorem decode_error_skips_pair_witness :
    KeyIter.nextAux (mockTransport [] (fun _ => none))
        (fun b => if b = 0 then (.error 9 : Except Nat Nat) else .ok b) 3
        ⟨1, none, [(1, 1), (2, 0)]⟩ =
      some (.error 9, ⟨1, none, [(1, 1)]⟩, 0) ∧
    KeyIter.nextAux (mockTransport [] (fun _ => none))
        (fun b => if b = 0 then (.error 9 : Except Nat Nat) else .ok b) 3
        ⟨1, none, [(1, 1)]⟩ =
      some (.ok (some (1, 1)), ⟨1, none, []⟩, 0) := by
  have h := decode_error_skips_pair (mockTransport ([] : List Nat) (fun _ => none))
    (fun b => if b = 0 then (.error 9 : Except Nat Nat) else .ok b)
    ⟨1, none, [(1, 1), (2, 0)]⟩ [(1, 1)] 2 0 9 2 rfl rfl
  exact ⟨h.1, h.2 [] 1 1 1 2 rfl rfl⟩

/-! ## Step equations and fuel monotonicity for the iterator -/

theorem nextAux_pop_ok {K B Er V : Type} (T : Transport K B) (dec : B → Except Er V)
    (s : KeyIterState K B) (b : List (K × B)) (k : K) (v : B) (u : V) (n : Nat)
    (hbuf : s.buffer = b ++ [(k, v)]) (hdec : dec v = .ok u) :
    KeyIter.nextAux T dec (n + 1) s = some (.ok (some (k, u)), { s with buffer := b }, 0) := by
  unfold KeyIter.nextAux
  simp only [hbuf, vecPop_concat, hdec]

theorem nextAux_page_empty {K B Er V : Type} (T : Transport K B) (dec : B → Except Er V)
    (s : KeyIterState K B) (n : Nat)
    (hbuf : s.buffer = []) (hkeys : T.fetch_keys s.count s.start_key = []) :
    KeyIter.nextAux T dec (n + 1) s = some (.ok none, { s with start_key := none }, 1) := by
  unfold KeyIter.nextAux
  simp only [hbuf, vecPop_nil, hkeys, List.isEmpty_nil, if_true]

theorem nextAux_page_fill {K B Er V : Type} (T : Transport K B) (dec : B → Except Er V)
    (s : KeyIterState K B) (keys : List K) (n : Nat)
    (hbuf : s.buffer = []) (hkeys : T.fetch_keys s.count s.start_key = keys)
    (hne : keys.isEmpty = false) :
    KeyIter.nextAux T dec (n + 1) s =
      match KeyIter.nextAux T dec n
          { s with
              start_key := keys.getLast?
              buffer := fillBuffer [] (T.query_storage_at keys) } with
      | none => none
      | some (r, s'', pages) => some (r, s'', pages + 1) := by
  conv_lhs => rw [KeyIter.nextAux]
  simp only [hbuf, vecPop_nil, hkeys, hne, Bool.false_eq_true, if_false]

theorem nextAux_mono {K B Er V : Type} (T : Transport K B) (dec : B → Except Er V) :
    ∀ (n : Nat) (s : KeyIterState K B) r,
      KeyIter.nextAux T dec n s = some r → KeyIter.nextAux T dec (n + 1) s = some r := by
  intro n
  induction n with
  | zero => intro s r h; exact absurd h (by simp [KeyIter.nextAux])
  | succ n ih =>
      intro s r h
      rw [KeyIter.nextAux] at h
      rw [KeyIter.nextAux]
      cases hpop : vecPop s.buffer with
      | some kvrest =>
          rcases kvrest with ⟨⟨k, v⟩, rest⟩
          rw [hpop] at h
          exact h
      | none =>
          rw [hpop] at h
          by_cases hemp : (T.fetch_keys s.count s.start_key).isEmpty
          · simp only [hemp, if_true] at h ⊢
            exact h
          · simp only [Bool.not_eq_true] at hemp
            simp only [hemp, Bool.false_eq_true, if_false] at h ⊢
            cases hrec : KeyIter.nextAux T dec n
                { s with
                    start_key := (T.fetch_keys s.count s.start_key).getLast?
                    buffer := fillBuffer s.buffer
                      (T.query_storage_at (T.fetch_keys s.count s.start_key)) } with
            | none => rw [hrec] at h; exact absurd h (by simp)
            | some r0 =>
                rcases r0 with ⟨r0, s'', pages⟩
                rw [hrec] at h
                rw [ih _ _ hrec]
                exact h

theorem nextAux_mono_le {K B Er V : Type} (T : Transport K B) (dec : B → Except Er V)
    (n m : Nat) (s : KeyIterState K B) r (hnm : n ≤ m)
    (h : KeyIter.nextAux T dec n s = some r) :
    KeyIter.nextAux T dec m s = some r := by
  induction m with
  | zero =>
      have : n = 0 := Nat.le_zero.mp hnm
      subst this
      exact h
  | succ m ih =>
      rcases Nat.lt_or_ge n (m + 1) with hlt | hge
      · exact nextAux_mono T dec m s r (ih (Nat.lt_succ_iff.mp hlt))
      · have : n = m + 1 := Nat.le_antisymm hnm hge
        subst this
        exact h

theorem drive_step_none {K B Er V : Type} (T : Transport K B) (dec : B → Except Er V)
    (fi n : Nat) (s s' : KeyIterState K B) (pg : Nat)
    (h : KeyIter.nextAux T dec fi s = some (.ok none, s', pg)) :
    KeyIter.drive T dec fi (n + 1) s = some ([], pg) := by
  unfold KeyIter.drive
  rw [h]

theorem drive_step_some {K B Er V : Type} (T : Transport K B) (dec : B → Except Er V)
    (fi n : Nat) (s s' : KeyIterState K B) (kv : K × V) (pg : Nat)
    (h : KeyIter.nextAux T dec fi s = some (.ok (some kv), s', pg)) :
    KeyIter.drive T dec fi (n + 1) s =
      match KeyIter.drive T dec fi n s' with
      | none => none
      | some (rest, pg') => some (kv :: rest, pg + pg') := by
  conv_lhs => rw [KeyIter.drive]
  rw [h]

theorem drive_innerMono_le {K B Er V : Type} (T : Transport K B) (dec : B → Except Er V)
    (fi fj : Nat) (hij : fi ≤ fj) :
    ∀ (n : Nat) (s : KeyIterState K B) r,
      KeyIter.drive T dec fi n s = some r → KeyIter.drive T dec fj n s = some r := by
  intro n
  induction n with
  | zero => intro s r h; exact absurd h (by simp [KeyIter.drive])
  | succ n ih =>
      intro s r h
      rw [KeyIter.drive] at h
      rw [KeyIter.drive]
      cases hx : KeyIter.nextAux T dec fi s with
      | none => rw [hx] at h; exact absurd h (by simp)
      | some r0 =>
          rcases r0 with ⟨r0, s', pg⟩
          rw [hx] at h
          rw [nextAux_mono_le T dec fi fj s _ hij hx]
          cases r0 with
          | error e => exact absurd h (by simp)
          | ok o =>
              cases o with
              | none => exact h
              | some kv =>
                  simp only at h ⊢
                  cases hd : KeyIter.drive T dec fi n s' with
                  | none => rw [hd] at h; exact absurd h (by simp)
                  | some rr =>
                      rw [hd] at h
                      rw [ih s' rr hd]
                      exact h

/-! ## Helpers for the pagination proof -/

theorem drive_unfold {K B Er V : Type} (T : Transport K B) (dec : B → Except Er V)
    (fi n : Nat) (s : KeyIterState K B) :
    KeyIter.drive T dec fi (n + 1) s =
      match KeyIter.nextAux T dec fi s with
      | none => none
      | some (.error _, _, _) => none
      | some (.ok none, _, pages) => some ([], pages)
      | some (.ok (some kv), s', pages) =>
          match KeyIter.drive T dec fi n s' with
          | none => none
          | some (rest, pages') => some (kv :: rest, pages + pages') := by
  conv_lhs => rw [KeyIter.drive]

theorem fillBuffer_mock {K B : Type} (val : K → Option B) (keys : List K) :
    fillBuffer [] (queryStorageAtMock val keys) =
      keys.filterMap (fun k => (val k).map (fun v => (k, v))) := by
  rw [queryStorageAtMock, fillBuffer_single]
  rw [List.nil_append, List.filterMap_map]
  rfl

theorem filterMap_val_g {K B V : Type} (val : K → Option B) (g : B → V) (l : List K) :
    l.filterMap (fun k => (val k).map (fun v => (k, g v))) =
      (l.filterMap (fun k => (val k).map (fun v => (k, v)))).map
        (fun kv => (kv.1, g kv.2)) := by
  rw [List.map_filterMap]
  apply List.filterMap_congr
  intro k _
  cases val k <;> simp

theorem driveSpec_empty_page {K B V : Type} (count : Nat) (val : K → Option B) (g : B → V)
    (pend : List K) (hpage : (pend.take count).isEmpty = true) :
    driveSpec count val g pend = ([], 1) := by
  unfold driveSpec
  rw [dif_pos hpage]

theorem driveSpec_fill {K B V : Type} (count : Nat) (val : K → Option B) (g : B → V)
    (pend : List K) (hpage : (pend.take count).isEmpty = false) :
    driveSpec count val g pend =
      (((pend.take count).filterMap (fun k => (val k).map (fun v => (k, g v)))).reverse
          ++ (driveSpec count val g (pend.drop count)).1,
        (driveSpec count val g (pend.drop count)).2 + 1) := by
  conv_lhs => rw [driveSpec]
  rw [dif_neg (by simp [hpage])]

theorem driveSpec_fst_length_le {K B V : Type} (count : Nat) (val : K → Option B)
    (g : B → V) : ∀ (pend : List K), (driveSpec count val g pend).1.length ≤ pend.length := by
  intro pend
  induction pend using driveSpec.induct count val g with
  | case1 pend hpage => rw [driveSpec_empty_page count val g pend hpage]; simp
  | case2 pend hpage ih =>
      rw [Bool.not_eq_true] at hpage
      rw [driveSpec_fill count val g pend hpage]
      have h1 : ((pend.take count).filterMap
          (fun k => (val k).map (fun v => (k, g v)))).length ≤ (pend.take count).length :=
        List.length_filterMap_le _ _
      have h2 := List.take_append_drop count pend
      have h3 : (pend.take count).length + (pend.drop count).length = pend.length := by
        rw [← List.length_append, h2]
      simp only [List.length_append, List.length_reverse]
      omega

theorem drive_drain {K B Er V : Type} (T : Transport K B) (dec : B → Except Er V)
    (g : B → V) (hdec : ∀ b, dec b = .ok (g b)) (fi : Nat) :
    ∀ (L : List (K × B)) (s : KeyIterState K B) (fo : Nat), s.buffer = L → 1 ≤ fi →
      KeyIter.drive T dec fi (L.length + fo) s =
        (KeyIter.drive T dec fi fo { s with buffer := [] }).map
          (fun r => (L.reverse.map (fun kv => (kv.1, g kv.2)) ++ r.1, r.2)) := by
  intro L
  induction L using List.reverseRecOn with
  | nil =>
      intro s fo hbuf _
      have hs : ({ s with buffer := [] } : KeyIterState K B) = s := by
        cases s
        simp only at hbuf
        simp [hbuf]
      rw [hs]
      simp only [List.length_nil, Nat.zero_add, List.reverse_nil, List.map_nil,
        List.nil_append]
      cases KeyIter.drive T dec fi fo s with
      | none => rfl
      | some r => rfl
  | append_singleton M kv ih =>
      intro s fo hbuf hfi
      rcases kv with ⟨k, v⟩
      obtain ⟨fi1, rfl⟩ : ∃ fi1, fi = fi1 + 1 := ⟨fi - 1, by omega⟩
      have hpop := nextAux_pop_ok T dec s M k v (g v) fi1 hbuf (hdec v)
      have hlen : (M ++ [(k, v)]).length + fo = (M.length + fo) + 1 := by
        simp only [List.length_append, List.length_cons, List.length_nil]
        omega
      rw [hlen]
      rw [drive_step_some T dec (fi1 + 1) (M.length + fo) s _ (k, g v) 0 hpop]
      have hih := ih { s with buffer := M } fo rfl hfi
      rw [hih]
      cases KeyIter.drive T dec (fi1 + 1) fo { s with buffer := [] } with
      | none => rfl
      | some r =>
          rcases r with ⟨ys, pg⟩
          simp

theorem sorted_le_getLast? {K : Type} [LinearOrder K] :
    ∀ (l : List K), l.Sorted (· < ·) → ∀ x ∈ l, ∀ c, l.getLast? = some c → x ≤ c := by
  intro l
  induction l with
  | nil => intro _ x hx; exact absurd hx (by simp)
  | cons a tl ih =>
      intro hs x hx c hc
      cases tl with
      | nil =>
          simp only [List.getLast?_singleton, Option.some.injEq] at hc
          simp only [List.mem_singleton] at hx
          subst hc hx
          exact le_refl _
      | cons b tl2 =>
          rw [List.getLast?_cons_cons] at hc
          rw [List.mem_cons] at hx
          have hs2 : (b :: tl2).Sorted (· < ·) := hs.of_cons
          rcases hx with rfl | hx
          · have hcmem : c ∈ b :: tl2 := List.mem_of_mem_getLast? (by simp [hc])
            exact le_of_lt ((List.sorted_cons.mp hs).1 c hcmem)
          · exact ih hs2 x hx c hc

theorem filter_afterCursor_eq {K : Type} [LinearOrder K] (done pend : List K)
    (st : Option K)
    (hdone : ∀ k ∈ done, afterCursor st k = false)
    (hpend : ∀ k ∈ pend, afterCursor st k = true) :
    (done ++ pend).filter (afterCursor st) = pend := by
  rw [List.filter_append]
  rw [List.filter_eq_nil_iff.mpr (by intro a ha; simp [hdone a ha])]
  rw [List.filter_eq_self.mpr hpend]
  simp

theorem drive_mock_exhaust {K B Er V : Type} [LinearOrder K] (ks : List K)
    (val : K → Option B) (dec : B → Except Er V) (count : Nat)
    (pend done : List K) (st : Option K)
    (hks : ks = done ++ pend)
    (hdone : ∀ k ∈ done, afterCursor st k = false)
    (hpend : ∀ k ∈ pend, afterCursor st k = true)
    (hpage : (pend.take count).isEmpty = true)
    (fi fo : Nat) (hfi : 1 ≤ fi) (hfo : 1 ≤ fo) :
    KeyIter.drive (mockTransport ks val) dec fi fo ⟨count, st, []⟩ = some ([], 1) := by
  obtain ⟨fi1, rfl⟩ : ∃ fi1, fi = fi1 + 1 := ⟨fi - 1, by omega⟩
  obtain ⟨fo1, rfl⟩ : ∃ fo1, fo = fo1 + 1 := ⟨fo - 1, by omega⟩
  have hkeys : (mockTransport ks val).fetch_keys count st = [] := by
    show (ks.filter (afterCursor st)).take count = []
    rw [hks, filter_afterCursor_eq done pend st hdone hpend]
    exact List.isEmpty_eq_true.mp hpage
  have hnx := nextAux_page_empty (mockTransport ks val) dec ⟨count, st, []⟩ fi1 rfl hkeys
  exact drive_step_none _ dec (fi1 + 1) fo1 _ _ 1 hnx

theorem drive_mock {K B Er V : Type} [LinearOrder K] (ks : List K) (val : K → Option B)
    (dec : B → Except Er V) (g : B → V) (hdec : ∀ b, dec b = .ok (g b))
    (hs : List.Sorted (· < ·) ks) (count : Nat) :
    ∀ (n : Nat) (pend done : List K) (st : Option K),
      pend.length ≤ n → ks = done ++ pend →
      (∀ k ∈ done, afterCursor st k = false) →
      (∀ k ∈ pend, afterCursor st k = true) →
      ∀ (fi fo : Nat), pend.length + 1 ≤ fi →
        (driveSpec count val g pend).1.length + 1 ≤ fo →
        KeyIter.drive (mockTransport ks val) dec fi fo ⟨count, st, []⟩ =
          some (driveSpec count val g pend) := by
  intro n
  induction n with
  | zero =>
      intro pend done st hlen hks hdone hpend fi fo hfi hfo
      have hpe : pend = [] := List.length_eq_zero.mp (Nat.le_zero.mp hlen)
      subst hpe
      rw [driveSpec_empty_page count val g [] (by simp)]
      exact drive_mock_exhaust ks val dec count [] done st hks hdone hpend (by simp) fi fo
        (by omega) (by omega)
  | succ n ih =>
      intro pend done st hlen hks hdone hpend fi fo hfi hfo
      cases hpage : (pend.take count).isEmpty with
      | true =>
          rw [driveSpec_empty_page count val g pend hpage]
          exact drive_mock_exhaust ks val dec count pend done st hks hdone hpend hpage
            fi fo (by omega) (by omega)
      | false =>
          have hpne : pend.take count ≠ [] := List.isEmpty_eq_false.mp hpage
          have hsplit : pend = pend.take count ++ pend.drop count :=
            (List.take_append_drop count pend).symm
          have hplen : 1 ≤ (pend.take count).length :=
            Nat.succ_le_of_lt (List.length_pos.mpr hpne)
          have hlensum : (pend.take count).length + (pend.drop count).length
              = pend.length := by
            rw [← List.length_append, ← hsplit]
          have hpendSorted : pend.Sorted (· < ·) :=
            (List.pairwise_append.mp (hks ▸ hs)).2.1
          have hpSorted : (pend.take count).Sorted (· < ·) :=
            List.Pairwise.sublist (List.take_sublist count pend) hpendSorted
          have hprSplit := List.pairwise_append.mp (hsplit ▸ hpendSorted)
          obtain ⟨c, hc⟩ : ∃ c, (pend.take count).getLast? = some c :=
            ⟨(pend.take count).getLast hpne, List.getLast?_eq_getLast_of_ne_nil hpne⟩
          have hcp : c ∈ pend.take count := List.mem_of_mem_getLast? (by simp [hc])
          have hcpend : c ∈ pend := by
            rw [hsplit]
            exact List.mem_append_left _ hcp
          have hdone2 : ∀ k ∈ done ++ pend.take count, afterCursor (some c) k = false := by
            intro k hk
            rw [List.mem_append] at hk
            simp only [afterCursor, decide_eq_false_iff_not, not_lt]
            rcases hk with hk | hk
            · have hkst := hdone k hk
              cases st with
              | none => simp [afterCursor] at hkst
              | some c0 =>
                  simp only [afterCursor, decide_eq_false_iff_not, not_lt] at hkst
                  have hcc0 : c0 < c := by
                    have h2 := hpend c hcpend
                    simpa [afterCursor] using h2
                  exact le_trans hkst (le_of_lt hcc0)
            · exact sorted_le_getLast? (pend.take count) hpSorted k hk c hc
          have hpend2 : ∀ k ∈ pend.drop count, afterCursor (some c) k = true := by
            intro k hk
            simp only [afterCursor, decide_eq_true_eq]
            exact hprSplit.2.2 c hcp k hk
          have hks2 : ks = (done ++ pend.take count) ++ pend.drop count := by
            rw [hks, List.append_assoc, ← hsplit]
          have hrle : (pend.drop count).length ≤ n := by omega
          have hkeys : (mockTransport ks val).fetch_keys count st = pend.take count := by
            show (ks.filter (afterCursor st)).take count = pend.take count
            rw [hks, filter_afterCursor_eq done pend st hdone hpend]
          have hyield : (driveSpec count val g pend).1 =
              (((pend.take count).filterMap (fun k => (val k).map (fun v => (k, v)))).map
                (fun kv => (kv.1, g kv.2))).reverse
                ++ (driveSpec count val g (pend.drop count)).1 := by
            rw [driveSpec_fill count val g pend hpage]
            dsimp only
            rw [filterMap_val_g val g (pend.take count)]
          have hpages : (driveSpec count val g pend).2 =
              (driveSpec count val g (pend.drop count)).2 + 1 := by
            rw [driveSpec_fill count val g pend hpage]
          obtain ⟨fi1, rfl⟩ : ∃ fi1, fi = fi1 + 1 := ⟨fi - 1, by omega⟩
          have hfi1 : (pend.drop count).length + 1 ≤ fi1 := by omega
          obtain ⟨fo1, rfl⟩ : ∃ fo1, fo = fo1 + 1 := ⟨fo - 1, by omega⟩
          have hstep := nextAux_page_fill (mockTransport ks val) dec ⟨count, st, []⟩
            (pend.take count) fi1 rfl hkeys hpage
          have hquery : (mockTransport ks val).query_storage_at
              = queryStorageAtMock (B := B) val := rfl
          rw [hquery, fillBuffer_mock val (pend.take count), hc] at hstep
          dsimp only at hstep
          rcases List.eq_nil_or_concat
              ((pend.take count).filterMap (fun k => (val k).map (fun v => (k, v)))) with
            hppE | ⟨q, kv0, hppE⟩
          · -- the whole page's values were deleted: the loop refetches inside one call
            rw [hppE] at hstep
            have hylen : (driveSpec count val g pend).1.length
                = (driveSpec count val g (pend.drop count)).1.length := by
              rw [hyield, hppE]
              simp
            have hrest := ih (pend.drop count) (done ++ pend.take count) (some c)
              hrle hks2 hdone2 hpend2 fi1 (fo1 + 1) hfi1 (by omega)
            rw [drive_unfold] at hrest
            rw [drive_unfold, hstep]
            cases hnx : KeyIter.nextAux (mockTransport ks val) dec fi1
                ⟨count, some c, []⟩ with
            | none =>
                rw [hnx] at hrest
                exact absurd hrest (by simp)
            | some r0 =>
                rcases r0 with ⟨r0, s2, pg⟩
                rw [hnx] at hrest
                cases r0 with
                | error e =>
                    dsimp only at hrest
                    exact absurd hrest (by simp)
                | ok o =>
                    cases o with
                    | none =>
                        dsimp only at hrest
                        have hdsr : driveSpec count val g (pend.drop count) = ([], pg) :=
                          (Option.some.inj hrest).symm
                        show some (([] : List (K × V)), pg + 1)
                          = some (driveSpec count val g pend)
                        symm
                        refine congrArg some (Prod.ext ?_ ?_)
                        · rw [hyield, hppE, hdsr]
                          simp
                        · rw [hpages, hdsr]
                    | some kv =>
                        dsimp only at hrest
                        cases hd : KeyIter.drive (mockTransport ks val) dec fi1 fo1 s2 with
                        | none =>
                            rw [hd] at hrest
                            exact absurd hrest (by simp)
                        | some rr =>
                            rcases rr with ⟨restD, pg2⟩
                            rw [hd] at hrest
                            dsimp only at hrest
                            have hdsr : driveSpec count val g (pend.drop count)
                                = (kv :: restD, pg + pg2) := (Option.some.inj hrest).symm
                            have hd2 : KeyIter.drive (mockTransport ks val) dec (fi1 + 1)
                                fo1 s2 = some (restD, pg2) :=
                              drive_innerMono_le (mockTransport ks val) dec fi1 (fi1 + 1)
                                (by omega) fo1 s2 _ hd
                            show (match KeyIter.drive (mockTransport ks val) dec (fi1 + 1)
                                    fo1 s2 with
                                  | none => none
                                  | some (rest2, pg') => some (kv :: rest2, (pg + 1) + pg'))
                                = some (driveSpec count val g pend)
                            rw [hd2]
                            symm
                            refine congrArg some (Prod.ext ?_ ?_)
                            · rw [hyield, hppE, hdsr]
                              simp
                            · rw [hpages, hdsr]
                              dsimp only
                              omega
          · -- the page contributed at least one present pair
            rcases kv0 with ⟨k0, v0⟩
            rw [List.concat_eq_append] at hppE
            rw [hppE] at hstep
            obtain ⟨fi2, rfl⟩ : ∃ fi2, fi1 = fi2 + 1 := ⟨fi1 - 1, by omega⟩
            have hpop := nextAux_pop_ok (mockTransport ks val) dec
              ⟨count, some c, q ++ [(k0, v0)]⟩ q k0 v0 (g v0) fi2 rfl (hdec v0)
            rw [hpop] at hstep
            have hstep2 : KeyIter.nextAux (mockTransport ks val) dec (fi2 + 1 + 1)
                ⟨count, st, []⟩
                = some (.ok (some (k0, g v0)), ⟨count, some c, q⟩, 1) := hstep
            have hylen : (driveSpec count val g pend).1.length
                = (q.length + 1) + (driveSpec count val g (pend.drop count)).1.length := by
              rw [hyield, hppE]
              simp
              omega
            rw [drive_unfold, hstep2]
            show (match KeyIter.drive (mockTransport ks val) dec (fi2 + 1 + 1) fo1
                    ⟨count, some c, q⟩ with
                  | none => none
                  | some (rest2, pg') => some ((k0, g v0) :: rest2, 1 + pg'))
                = some (driveSpec count val g pend)
            have hrest := ih (pend.drop count) (done ++ pend.take count) (some c)
              hrle hks2 hdone2 hpend2 (fi2 + 1 + 1) (fo1 - q.length)
              (by omega) (by omega)
            have hdrain := drive_drain (mockTransport ks val) dec g hdec (fi2 + 1 + 1) q
              ⟨count, some c, q⟩ (fo1 - q.length) rfl (by omega)
            rw [hrest] at hdrain
            have hfoeq : q.length + (fo1 - q.length) = fo1 := by omega
            rw [hfoeq] at hdrain
            rw [hdrain]
            simp only [Option.map_some']
            symm
            refine congrArg some (Prod.ext ?_ ?_)
            · rw [hyield, hppE]
              simp [List.map_reverse]
            · rw [hpages]
              dsimp only
              omega

theorem chunks_empty_page {α : Type} (count : Nat) (l : List α)
    (h : (l.take count).isEmpty = true) : chunks count l = [] := by
  unfold chunks
  rw [dif_pos h]

theorem chunks_fill {α : Type} (count : Nat) (l : List α)
    (h : (l.take count).isEmpty = false) :
    chunks count l = l.take count :: chunks count (l.drop count) := by
  conv_lhs => rw [chunks]
  rw [dif_neg (by simp [h])]

theorem fst_filterMap_val {K B V : Type} (val : K → Option B) (g : B → V) :
    ∀ l : List K,
      (l.filterMap (fun k => (val k).map (fun v => (k, g v)))).map Prod.fst =
        l.filter (fun k => (val k).isSome) := by
  intro l
  induction l with
  | nil => rfl
  | cons a tl ih =>
      rw [List.filterMap_cons, List.filter_cons]
      cases hv : val a with
      | none => simpa [hv] using ih
      | some v => simpa [hv] using ih

theorem driveSpec_keys_perm {K B V : Type} (count : Nat) (val : K → Option B)
    (g : B → V) (hc : 0 < count) :
    ∀ pend : List K,
      ((driveSpec count val g pend).1.map Prod.fst).Perm
        (pend.filter (fun k => (val k).isSome)) := by
  intro pend
  induction pend using driveSpec.induct count val g with
  | case1 pend hpage =>
      rw [driveSpec_empty_page count val g pend hpage]
      have hpe : pend = [] := by
        rw [List.isEmpty_eq_true, List.take_eq_nil_iff] at hpage
        rcases hpage with h | h
        · omega
        · exact h
      subst hpe
      rfl
  | case2 pend hpage ih =>
      rw [Bool.not_eq_true] at hpage
      rw [driveSpec_fill count val g pend hpage]
      dsimp only
      rw [List.map_append]
      have hpg : ((((pend.take count).filterMap
            (fun k => (val k).map (fun v => (k, g v)))).reverse).map Prod.fst).Perm
          ((pend.take count).filter (fun k => (val k).isSome)) := by
        rw [List.map_reverse, fst_filterMap_val val g (pend.take count)]
        exact List.reverse_perm _
      have hfil : (pend.take count).filter (fun k => (val k).isSome)
          ++ (pend.drop count).filter (fun k => (val k).isSome)
          = pend.filter (fun k => (val k).isSome) := by
        rw [← List.filter_append, List.take_append_drop]
      exact hfil ▸ hpg.append ih

theorem driveSpec_pages {K B V : Type} (count : Nat) (val : K → Option B)
    (g : B → V) (hc : 0 < count) :
    ∀ pend : List K,
      (driveSpec count val g pend).2 = (pend.length + count - 1) / count + 1 := by
  intro pend
  induction pend using driveSpec.induct count val g with
  | case1 pend hpage =>
      rw [driveSpec_empty_page count val g pend hpage]
      have hpe : pend = [] := by
        rw [List.isEmpty_eq_true, List.take_eq_nil_iff] at hpage
        rcases hpage with h | h
        · omega
        · exact h
      subst hpe
      simp only [List.length_nil, Nat.zero_add]
      rw [Nat.div_eq_of_lt (by omega)]
  | case2 pend hpage ih =>
      rw [Bool.not_eq_true] at hpage
      rw [driveSpec_fill count val g pend hpage]
      dsimp only
      rw [ih]
      have hpne : pend ≠ [] := by
        intro h
        subst h
        simp at hpage
      have hlp : 1 ≤ pend.length := by
        rcases pend with _ | _
        · exact absurd rfl hpne
        · simp
      have hdl : (pend.drop count).length = pend.length - count := by simp
      rw [hdl]
      rcases Nat.lt_or_ge pend.length count with hlt | hge
      · have h0 : pend.length - count = 0 := by omega
        rw [h0]
        rw [Nat.div_eq_of_lt (by omega)]
        have h1 : (pend.length + count - 1) / count = 1 :=
          Nat.div_eq_of_lt_le (by omega) (by omega)
        rw [h1]
      · have heq : pend.length + count - 1 = (pend.length - count + count - 1) + count := by
          omega
        rw [heq, Nat.add_div_right _ hc]

theorem filterMap_some_eq_map {K V : Type} (h : K → V) :
    ∀ l : List K, l.filterMap (fun k => some (h k)) = l.map h := by
  intro l
  induction l with
  | nil => rfl
  | cons a tl ih => simp [List.filterMap_cons, ih]

theorem driveSpec_chunks {K B V : Type} (count : Nat) (f : K → B) (g : B → V) :
    ∀ pend : List K,
      (driveSpec count (fun k => some (f k)) g pend).1 =
        ((chunks count pend).map
          (fun p => (p.map (fun k => (k, g (f k)))).reverse)).flatten := by
  intro pend
  induction pend using driveSpec.induct count (fun k => some (f k)) g with
  | case1 pend hpage =>
      rw [driveSpec_empty_page count _ g pend hpage, chunks_empty_page count pend hpage]
      rfl
  | case2 pend hpage ih =>
      rw [Bool.not_eq_true] at hpage
      rw [driveSpec_fill count _ g pend hpage, chunks_fill count pend hpage]
      dsimp only
      rw [ih, List.map_cons, List.flatten_cons]
      congr 1
      rw [show (fun k => (some (f k)).map (fun v => (k, g v)))
            = fun k => some ((k, g (f k))) from rfl]
      rw [filterMap_some_eq_map (fun k => (k, g (f k))) (pend.take count)]

/-! ## Claim theorems: pagination -/

/-- C2: over a full iteration against the modelled transport (listing sees
the sorted key list `ks`, the batched value read sees `val`), every listed
key whose value is present is yielded exactly once (the yielded keys are a
permutation of the present-valued keys, without duplicates), a listed key
whose value is absent is dropped without an error, and the drive completes
normally. -/
theorem iteration_yields_present_keys_once {K B Er V : Type} [LinearOrder K]
    (ks : List K) (val : K → Option B) (dec : B → Except Er V) (g : B → V)
    (hdec : ∀ b, dec b = .ok (g b)) (hs : List.Sorted (· < ·) ks)
    (count : Nat) (hc : 0 < count) :
    ∃ ys pg,
      KeyIter.drive (mockTransport ks val) dec (ks.length + 1) (ks.length + 1)
          ⟨count, none, []⟩ = some (ys, pg) ∧
      (ys.map Prod.fst).Perm (ks.filter (fun k => (val k).isSome)) ∧
      (ys.map Prod.fst).Nodup := by
  have hmain := drive_mock ks val dec g hdec hs count ks.length ks [] none
    (le_refl _) rfl (by intro k hk; exact absurd hk (by simp))
    (by intro k _; rfl) (ks.length + 1) (ks.length + 1) (by omega)
    (by have := driveSpec_fst_length_le count val g ks; omega)
  have hperm := driveSpec_keys_perm count val g hc ks
  refine ⟨(driveSpec count val g ks).1, (driveSpec count val g ks).2, ?_, hperm, ?_⟩
  · rw [hmain]
  · exact (hperm.nodup_iff).mpr ((hs.nodup).filter _)

/-- Closed instance of `iteration_yields_present_keys_once`: the map with
listed keys `[1, 2, 3]` where key `2`'s value was deleted between the
listing and the value read yields exactly the keys `1` and `3`. -/
theorem iteration_yields_present_keys_once_witness :
    ∃ ys pg,
      KeyIter.drive (mockTransport [1, 2, 3] (fun k => if k = 2 then none else some k))
          (fun b => (.ok b : Except Nat Nat)) (3 + 1) (3 + 1) ⟨2, none, []⟩ =
        some (ys, pg) ∧
      (ys.map Prod.fst).Perm
        ([1, 2, 3].filter (fun k => ((fun k => if k = 2 then none else some k) k).isSome)) ∧
      (ys.map Prod.fst).Nodup :=
  iteration_yields_present_keys_once [1, 2, 3]
    (fun k => if k = 2 then none else some k) (fun b => .ok b) id
    (fun _ => rfl) (by decide) 2 (by decide)

/-- C6: with no concurrent mutation (every listed key's value is present),
driving the iterator to exhaustion over a map of `N = ks.length` entries
with page size `0 < count < N` yields exactly `N` distinct keys and issues
exactly `ceil(N / count) + 1 = (N + count - 1) / count + 1` page requests
(the final one returning the empty list that ends the iteration). -/
theorem pagination_exhaustion_page_count {K B Er V : Type} [LinearOrder K]
    (ks : List K) (f : K → B) (dec : B → Except Er V) (g : B → V)
    (hdec : ∀ b, dec b = .ok (g b)) (hs : List.Sorted (· < ·) ks)
    (count : Nat) (hc : 0 < count) (hcN : count < ks.length) :
    ∃ ys : List (K × V),
      KeyIter.drive (mockTransport ks (fun k => some (f k))) dec (ks.length + 1)
          (ks.length + 1) ⟨count, none, []⟩ =
        some (ys, (ks.length + count - 1) / count + 1) ∧
      (ys.map Prod.fst).Perm ks ∧ (ys.map Prod.fst).Nodup ∧
      (ys.map Prod.fst).length = ks.length := by
  have hmain := drive_mock ks (fun k => some (f k)) dec g hdec hs count ks.length ks []
    none (le_refl _) rfl (by intro k hk; exact absurd hk (by simp))
    (by intro k _; rfl) (ks.length + 1) (ks.length + 1) (by omega)
    (by have := driveSpec_fst_length_le count (fun k => some (f k)) g ks; omega)
  have hperm0 := driveSpec_keys_perm count (fun k => some (f k)) g hc ks
  have hfil : ks.filter (fun k => (some (f k)).isSome) = ks := by
    simpa using List.filter_true ks
  rw [hfil] at hperm0
  have hpg := driveSpec_pages count (fun k => some (f k)) g hc ks
  refine ⟨(driveSpec count (fun k => some (f k)) g ks).1, ?_, hperm0, ?_, ?_⟩
  · rw [hmain]
    exact congrArg some (Prod.ext rfl hpg)
  · exact (hperm0.nodup_iff).mpr hs.nodup
  · exact hperm0.length_eq

/-- Closed instance of `pagination_exhaustion_page_count`: a map with the
three keys `[1, 2, 3]` iterated with page size 2 yields three distinct
keys across `ceil(3 / 2) + 1 = 3` page requests. -/
theorem pagination_exhaustion_page_count_witness :
    ∃ ys : List (Nat × Nat),
      KeyIter.drive (mockTransport [1, 2, 3] (fun k => some (k * 10)))
          (fun b => (.ok b : Except Nat Nat)) (3 + 1) (3 + 1) ⟨2, none, []⟩ =
        some (ys, (3 + 2 - 1) / 2 + 1) ∧
      (ys.map Prod.fst).Perm [1, 2, 3] ∧ (ys.map Prod.fst).Nodup ∧
      (ys.map Prod.fst).length = 3 :=
  pagination_exhaustion_page_count [1, 2, 3] (fun k => k * 10) (fun b => .ok b) id
    (fun _ => rfl) (by decide) 2 (by decide) (by decide)

/-- C8: with every value present, the pairs a full drive yields are exactly
the pages of the sorted key list in forward order, each page's pairs
reversed: by page forward, within a page in reverse of the order the pairs
were fetched and pushed into the buffer. -/
theorem within_page_reverse_order {K B Er V : Type} [LinearOrder K]
    (ks : List K) (f : K → B) (dec : B → Except Er V) (g : B → V)
    (hdec : ∀ b, dec b = .ok (g b)) (hs : List.Sorted (· < ·) ks) (count : Nat) :
    ∃ pg,
      KeyIter.drive (mockTransport ks (fun k => some (f k))) dec (ks.length + 1)
          (ks.length + 1) ⟨count, none, []⟩ =
        some (((chunks count ks).map
          (fun p => (p.map (fun k => (k, g (f k)))).reverse)).flatten, pg) := by
  have hmain := drive_mock ks (fun k => some (f k)) dec g hdec hs count ks.length ks []
    none (le_refl _) rfl (by intro k hk; exact absurd hk (by simp))
    (by intro k _; rfl) (ks.length + 1) (ks.length + 1) (by omega)
    (by have := driveSpec_fst_length_le count (fun k => some (f k)) g ks; omega)
  refine ⟨(driveSpec count (fun k => some (f k)) g ks).2, ?_⟩
  rw [hmain]
  exact congrArg some (Prod.ext (driveSpec_chunks count f g ks) rfl)

/-- Closed instance of `within_page_reverse_order`: keys `[1, 2, 3]` with
page size 2 are yielded as `(2, _), (1, _)` (first page reversed) then
`(3, _)`. -/
theorem within_page_reverse_order_witness :
    ∃ pg,
      KeyIter.drive (mockTransport [1, 2, 3] (fun k => some (k * 10)))
          (fun b => (.ok b : Except Nat Nat)) (3 + 1) (3 + 1) ⟨2, none, []⟩ =
        some (((chunks 2 [1, 2, 3]).map
          (fun p => (p.map (fun k => (k, k * 10))).reverse)).flatten, pg) :=
  within_page_reverse_order [1, 2, 3] (fun k => k * 10) (fun b => .ok b) id
    (fun _ => rfl) (by decide) 2

end Subxt
